import Mathlib

/-! Region-permission resolution (`main.go`)

A shallow embedding of the distributor permission resolver.

Modelling choices:

* A Go `string` is a Lean `String`; `strings.Contains` is contiguous
  containment of the character sequence (`stringsContains`), written out as the
  naive left-to-right search.
* `map[string]Region` is an association list (`Catalog`); the comma-ok lookup
  `_, exists := regions[region]` is `mapLookup`, `exists` being `isSome`.
* `*Distributor` with a nil-able `Parent` is an inductive type whose `Parent`
  field is an `Option`: its values are exactly the distributors with a finite
  parent chain.
* `fmt.Println` is modelled by returning the printed lines next to the result:
  `hasPermission` returns `(decision, lines)`.
* `strings.ToUpper` maps the library's rune table `unicode.ToUpper` over the
  characters; the table is a parameter `up`, and `asciiToUpper` is its ASCII part.
* `loadRegions` is modelled from the outcome of `reader.ReadAll` onward;
  `readAll` is that call on the rows of the file, with the field-count check of
  a reader whose `FieldsPerRecord` is 0.
* `assignPermission` returns the distributor after the call.
* For the termination of the walk a second model keeps the distributors in a
  store and makes `Parent` an address (`hasPermissionAt`, with fuel); it is shown
  to agree with the first model on finite chains.
-/

namespace Challenge2016

/-! ## Data model -/

/-- The regional data loaded from the CSV file (`type Region struct`). -/
structure Region where
  Country : String
  State : String
  City : String
deriving DecidableEq, Repr

/-- Lists of fragments included and excluded (`type Permissions struct`). -/
structure Permissions where
  Inclusions : List String
  Exclusions : List String
deriving DecidableEq, Repr

/-- A distributor with its permissions and its parent (`type Distributor struct`);
`Parent = none` is the nil pointer. -/
inductive Distributor where
  | mk (Name : String) (Permissions : Permissions) (Parent : Option Distributor)

/-- Field `Name`. -/
def Distributor.Name : Distributor → String
  | .mk n _ _ => n

/-- Field `Permissions`. -/
def Distributor.Permissions : Distributor → Permissions
  | .mk _ p _ => p

/-- Field `Parent`. -/
def Distributor.Parent : Distributor → Option Distributor
  | .mk _ _ q => q

/-- The region map `map[string]Region`, as an association list. -/
abbrev Catalog := List (String × Region)

/-! ## Library operations used by the resolver -/

/-- Whether `p` is a prefix of `s`, character by character. -/
def hasPrefixChars : List Char → List Char → Bool
  | _, [] => true
  | [], _ :: _ => false
  | c :: s, d :: p => c == d && hasPrefixChars s p

/-- Naive search of `sub` in `s`: try every start position from the left. -/
def containsChars : List Char → List Char → Bool
  | [], sub => hasPrefixChars [] sub
  | c :: s, sub => hasPrefixChars (c :: s) sub || containsChars s sub

/-- The call `strings.Contains(s, substr)`. -/
def stringsContains (s substr : String) : Bool :=
  containsChars s.data substr.data

/-- The lookup `regions[key]`: the first binding of `key`, if any. -/
def mapLookup : Catalog → String → Option Region
  | [], _ => none
  | (k, v) :: rest, key => if k = key then some v else mapLookup rest key

/-! ## The resolver -/

/-- The loop `for _, f := range fragments { if strings.Contains(region, f) { return ... } }`:
`true` when the loop body returns, `false` when the loop runs to its end. -/
def matchesAny (region : String) : List String → Bool
  | [] => false
  | f :: fs => if stringsContains region f then true else matchesAny region fs

/-- The line printed by `fmt.Println("Invalid region:", region)`. -/
def invalidRegionLine (region : String) : String :=
  "Invalid region: " ++ region

/-- The function `hasPermission(distributor, region, regions)`: the returned boolean
and the lines printed during the call. -/
def hasPermission : Distributor → String → Catalog → Bool × List String
  | .mk _ perms parent, region, regions =>
    -- Check if region is valid based on CSV data
    if !(mapLookup regions region).isSome then
      (false, [invalidRegionLine region])
    -- Check exclusions first
    else if matchesAny region perms.Exclusions then
      (false, [])
    -- Check inclusions
    else if matchesAny region perms.Inclusions then
      (true, [])
    else
      -- If a parent exists, check the parent's permissions
      match parent with
      | some p => hasPermission p region regions
      | none => (false, [])

/-! ## The variant with the validity check hoisted out of the walk -/

/-- The ancestor walk with the exclusion, inclusion and parent-fallback steps only. -/
def walkAncestors : Distributor → String → Bool
  | .mk _ perms parent, region =>
    if matchesAny region perms.Exclusions then false
    else if matchesAny region perms.Inclusions then true
    else
      match parent with
      | some p => walkAncestors p region
      | none => false

/-- The resolver that checks catalog membership once, up front, and then walks the
ancestor chain. -/
def hasPermissionHoisted (d : Distributor) (region : String) (regions : Catalog) :
    Bool × List String :=
  if !(mapLookup regions region).isSome then
    (false, [invalidRegionLine region])
  else
    (walkAncestors d region, [])

/-! ## Vocabulary of the specification -/

/-- The ancestor chain: the distributor itself (level 0), its parent (level 1), ... -/
def ancestors : Distributor → List Distributor
  | .mk n perms none => [.mk n perms none]
  | .mk n perms (some p) => .mk n perms (some p) :: ancestors p

/-- Fragment `f` is a contiguous substring of `key`. -/
def Substr (f key : String) : Prop :=
  f.data <:+: key.data

/-- Some inclusion fragment of `d` itself is a substring of `key`. -/
def Includes (d : Distributor) (key : String) : Prop :=
  ∃ f ∈ d.Permissions.Inclusions, Substr f key

/-- Some exclusion fragment of `d` itself is a substring of `key`. -/
def Excludes (d : Distributor) (key : String) : Prop :=
  ∃ f ∈ d.Permissions.Exclusions, Substr f key

/-- The rules of `d` itself are silent on `key`: no fragment of either list is a
substring of `key`. -/
def Silent (d : Distributor) (key : String) : Prop :=
  ¬ Includes d key ∧ ¬ Excludes d key

/-- The key is a key of the catalog. -/
def InCatalog (regions : Catalog) (key : String) : Prop :=
  ∃ r, (key, r) ∈ regions

/-- Two distributors whose chains have the same length and, level by level, the same
name and inclusion and exclusion lists that are permutations of each other. -/
inductive SameUpToOrder : Distributor → Distributor → Prop
  | root {n : String} {i i2 e e2 : List String} :
      i.Perm i2 → e.Perm e2 →
      SameUpToOrder (.mk n ⟨i, e⟩ none) (.mk n ⟨i2, e2⟩ none)
  | child {n : String} {i i2 e e2 : List String} {p p2 : Distributor} :
      i.Perm i2 → e.Perm e2 → SameUpToOrder p p2 →
      SameUpToOrder (.mk n ⟨i, e⟩ (some p)) (.mk n ⟨i2, e2⟩ (some p2))

/-! ## The sample data of `main` -/

/-- The catalog of the four sample records Chicago, Chennai, Bangalore and Hubli. -/
def sampleRegions : Catalog :=
  [("CHICAGO-ILLINOIS-UNITEDSTATES", ⟨"UnitedStates", "Illinois", "Chicago"⟩),
   ("CHENNAI-TAMILNADU-INDIA", ⟨"India", "TamilNadu", "Chennai"⟩),
   ("BANGALORE-KARNATAKA-INDIA", ⟨"India", "Karnataka", "Bangalore"⟩),
   ("HUBLI-KARNATAKA-INDIA", ⟨"India", "Karnataka", "Hubli"⟩)]

/-- The value `distributor1` of `main`. -/
def distributor1 : Distributor :=
  .mk "DISTRIBUTOR1"
    ⟨["INDIA", "UNITEDSTATES"], ["KARNATAKA-INDIA", "CHENNAI-TAMILNADU-INDIA"]⟩ none

/-- The value `distributor2` of `main`. -/
def distributor2 : Distributor :=
  .mk "DISTRIBUTOR2" ⟨["INDIA"], ["TAMILNADU-INDIA"]⟩ (some distributor1)

/-- The value `distributor3` of `main`. -/
def distributor3 : Distributor :=
  .mk "DISTRIBUTOR3" ⟨["HUBLI-KARNATAKA-INDIA"], []⟩ (some distributor2)

/-- A distributor whose only rule is the inclusion fragment `NDI`, which is not a whole
segment of any key. -/
def looseDistributor : Distributor :=
  .mk "LOOSE" ⟨["NDI"], []⟩ none

/-- A distributor without rules of its own under `distributor1`. -/
def silentChild : Distributor :=
  .mk "SILENT" ⟨[], []⟩ (some distributor1)

/-- The distributor `distributor2` with its lists reordered, under `distributor1` with
its lists reordered. -/
def distributor2Reordered : Distributor :=
  .mk "DISTRIBUTOR2" ⟨["INDIA"], ["TAMILNADU-INDIA"]⟩
    (some (.mk "DISTRIBUTOR1"
      ⟨["UNITEDSTATES", "INDIA"], ["CHENNAI-TAMILNADU-INDIA", "KARNATAKA-INDIA"]⟩ none))

/-- The inclusion `HUBLI-KARNATAKA-INDIA` alone, without parent. -/
def hubliOrphan : Distributor :=
  .mk "HUBLI" ⟨["HUBLI-KARNATAKA-INDIA"], []⟩ none

/-- The inclusion `HUBLI-KARNATAKA-INDIA` alone, under `distributor1`. -/
def hubliUnderDistributor1 : Distributor :=
  .mk "HUBLI" ⟨["HUBLI-KARNATAKA-INDIA"], []⟩ (some distributor1)

/-! ## Building the catalog -/

/-- The call `strings.ToUpper(s)`: the rune table `up` (the library's `unicode.ToUpper`,
a parameter) applied to every character. -/
def stringsToUpper (up : Char → Char) (s : String) : String :=
  ⟨s.data.map up⟩

/-- The ASCII part of `unicode.ToUpper`: `a`..`z` are moved down by `'a' - 'A'`, every
other character is kept. -/
def asciiToUpper (c : Char) : Char :=
  if 97 ≤ c.toNat ∧ c.toNat ≤ 122 then Char.ofNat (c.toNat - 32) else c

/-- The expression `strings.ToUpper(fmt.Sprintf("%s-%s-%s", city, state, country))`. -/
def regionKey (up : Char → Char) (country state city : String) : String :=
  stringsToUpper up (city ++ "-" ++ state ++ "-" ++ country)

/-- The assignment `regions[key] = value`: the binding of `key` is replaced when there
is one and added otherwise. -/
def mapInsert : Catalog → String → Region → Catalog
  | [], key, value => [(key, value)]
  | (k, v) :: rest, key, value =>
    if k = key then (key, value) :: rest else (k, v) :: mapInsert rest key value

/-- The loop `for _, record := range records` of `loadRegions`, started on the map
`regions`. -/
def loadRecords (up : Char → Char) : List (List String) → Catalog → Catalog
  | [], regions => regions
  | (country :: state :: city :: _) :: rest, regions =>
    loadRecords up rest
      (mapInsert regions (regionKey up country state city)
        { Country := country, State := state, City := city })
  -- len(record) < 3: continue
  | _ :: rest, regions => loadRecords up rest regions

/-- The text of `csv.ErrFieldCount`, the error of a record whose number of fields is not
the expected one (the position the library adds to it is left out). -/
def fieldCountError : String :=
  "wrong number of fields"

/-- The records read once `FieldsPerRecord` is set: a record with another number of
fields ends the reading with an error. -/
def readRecords (fieldsPerRecord : Nat) :
    List (List String) → Except String (List (List String))
  | [] => .ok []
  | record :: rest =>
    if record.length ≠ fieldsPerRecord then .error fieldCountError
    else
      match readRecords fieldsPerRecord rest with
      | .ok records => .ok (record :: records)
      | .error err => .error err

/-- The call `reader.ReadAll()` on a reader made by `csv.NewReader`, whose
`FieldsPerRecord` is 0: the first record sets the number of fields that every later
record must have. The argument is the rows of the file, each split into its fields. -/
def readAll (rows : List (List String)) : Except String (List (List String)) :=
  match rows with
  | [] => .ok []
  | first :: _ => readRecords first.length rows

/-- A file of two rows: a well-formed record and a row of two fields. -/
def raggedRows : List (List String) :=
  [["India", "Karnataka", "Hubli"], ["short", "row"]]

/-- The function `loadRegions`, from the outcome of opening and parsing the file
(`os.Open` followed by `reader.ReadAll`, see `readAll`) onward: an error is handed on,
the records are loaded into a fresh map. -/
def loadRegions (up : Char → Char) (parsed : Except String (List (List String))) :
    Except String Catalog :=
  match parsed with
  | .error err => .error err
  | .ok records => .ok (loadRecords up records [])

/-- The key of a region as the specification forms it:
`uppercase(city) + "-" + uppercase(state) + "-" + uppercase(country)`. -/
def specKey (up : Char → Char) (r : Region) : String :=
  stringsToUpper up r.City ++ "-" ++ stringsToUpper up r.State ++ "-" ++
    stringsToUpper up r.Country

/-- The three fields of `r` are left unchanged by uppercasing. -/
def UpperFixed (up : Char → Char) (r : Region) : Prop :=
  stringsToUpper up r.City = r.City ∧ stringsToUpper up r.State = r.State ∧
    stringsToUpper up r.Country = r.Country

/-- The city and the state of `r` contain no hyphen. -/
def HyphenFree (r : Region) : Prop :=
  '-' ∉ r.City.data ∧ '-' ∉ r.State.data

instance (up : Char → Char) (r : Region) : Decidable (UpperFixed up r) := by
  unfold UpperFixed; infer_instance

instance (r : Region) : Decidable (HyphenFree r) := by
  unfold HyphenFree; infer_instance

/-- The table `up` does what `unicode.ToUpper` does on the ASCII characters. -/
def AgreesOnAscii (up : Char → Char) : Prop :=
  ∀ c : Char, c.toNat < 128 → up c = asciiToUpper c

/-- The four sample records, in the column order `country, state, city` of the file. -/
def sampleRecords : List (List String) :=
  [["UnitedStates", "Illinois", "Chicago"],
   ["India", "TamilNadu", "Chennai"],
   ["India", "Karnataka", "Bangalore"],
   ["India", "Karnataka", "Hubli"]]

/-! ## Assigning rules -/

/-- The function `assignPermission(distributor, permissionType, region)`: the
distributor after the call. -/
def assignPermission : Distributor → String → String → Distributor
  | .mk n perms parent, permissionType, region =>
    if permissionType = "INCLUDE" then
      .mk n { perms with Inclusions := perms.Inclusions ++ [region] } parent
    else if permissionType = "EXCLUDE" then
      .mk n { perms with Exclusions := perms.Exclusions ++ [region] } parent
    else
      .mk n perms parent

/-! ## Distributors as cells with a parent pointer

In this second model a distributor is a cell of a store and `Parent` is the address of
another cell, so that a parent cycle can be written down; the walk then needs fuel. -/

/-- A `Distributor` value in the store; `Parent` is an address or nil. -/
structure Cell where
  Name : String
  Permissions : Permissions
  Parent : Option Nat
deriving DecidableEq, Repr

/-- The store: the cell at address `a` is `store[a]?`. -/
abbrev Store := List Cell

/-- The outcome of a call: the returned boolean, the printed lines and the addresses of
the distributors the call and its recursive calls were made on, in order. -/
structure Run where
  result : Bool
  lines : List String
  visited : List Nat
deriving DecidableEq, Repr

/-- The function `hasPermission` on the store, with `fuel` bounding the depth of the
recursion: `none` when the fuel runs out (or an address is not a cell). -/
def hasPermissionAt (store : Store) (region : String) (regions : Catalog) :
    Nat → Nat → Option Run
  | 0, _ => none
  | fuel + 1, addr =>
    match store[addr]? with
    | none => none
    | some cell =>
      if !(mapLookup regions region).isSome then
        some ⟨false, [invalidRegionLine region], [addr]⟩
      else if matchesAny region cell.Permissions.Exclusions then
        some ⟨false, [], [addr]⟩
      else if matchesAny region cell.Permissions.Inclusions then
        some ⟨true, [], [addr]⟩
      else
        match cell.Parent with
        | some p =>
          match hasPermissionAt store region regions fuel p with
          | some run => some ⟨run.result, run.lines, addr :: run.visited⟩
          | none => none
        | none => some ⟨false, [], [addr]⟩

/-- The cell at `addr` heads a parent chain that ends in nil after `n` links. -/
inductive ChainOfDepth (store : Store) : Nat → Nat → Prop
  | root {addr : Nat} {cell : Cell} :
      store[addr]? = some cell → cell.Parent = none → ChainOfDepth store addr 0
  | link {addr p n : Nat} {cell : Cell} :
      store[addr]? = some cell → cell.Parent = some p → ChainOfDepth store p n →
      ChainOfDepth store addr (n + 1)

/-- The distributor of the first model that the chain at `addr` stands for, when the
chain ends within `fuel` cells. -/
def distributorAt (store : Store) : Nat → Nat → Option Distributor
  | 0, _ => none
  | fuel + 1, addr =>
    match store[addr]? with
    | none => none
    | some cell =>
      match cell.Parent with
      | none => some (.mk cell.Name cell.Permissions none)
      | some p =>
        match distributorAt store fuel p with
        | some parent => some (.mk cell.Name cell.Permissions (some parent))
        | none => none

/-- The sample distributors in a store: `distributor1` at 0, `distributor2` at 1,
`distributor3` at 2. -/
def sampleStore : Store :=
  [⟨"DISTRIBUTOR1",
      ⟨["INDIA", "UNITEDSTATES"], ["KARNATAKA-INDIA", "CHENNAI-TAMILNADU-INDIA"]⟩, none⟩,
   ⟨"DISTRIBUTOR2", ⟨["INDIA"], ["TAMILNADU-INDIA"]⟩, some 0⟩,
   ⟨"DISTRIBUTOR3", ⟨["HUBLI-KARNATAKA-INDIA"], []⟩, some 1⟩]

/-- A store with a parent cycle: two distributors without rules, each the parent of the
other. -/
def cyclicStore : Store :=
  [⟨"X", ⟨[], []⟩, some 1⟩, ⟨"Y", ⟨[], []⟩, some 0⟩]

/-- A distributor under `distributor1` whose exclusions contain the empty fragment. -/
def emptyExclusion : Distributor :=
  .mk "NOTHING" ⟨["INDIA"], [""]⟩ (some distributor1)

/-- A distributor without parent whose inclusions contain the empty fragment. -/
def emptyInclusion : Distributor :=
  .mk "EVERYTHING" ⟨[""], ["KARNATAKA-INDIA"]⟩ none

/-! ## Basic lemmas -/

theorem hasPrefixChars_iff (s p : List Char) : hasPrefixChars s p = true ↔ p <+: s := by
  induction p generalizing s with
  | nil => simp [hasPrefixChars]
  | cons d p ih =>
    cases s with
    | nil => simp [hasPrefixChars]
    | cons c s =>
      simp only [hasPrefixChars, Bool.and_eq_true, beq_iff_eq, ih, List.cons_prefix_cons]
      constructor
      · rintro ⟨h, h2⟩; exact ⟨h.symm, h2⟩
      · rintro ⟨h, h2⟩; exact ⟨h.symm, h2⟩

theorem containsChars_iff (s sub : List Char) : containsChars s sub = true ↔ sub <:+: s := by
  induction s with
  | nil =>
    simp only [containsChars, hasPrefixChars_iff]
    constructor
    · intro h; exact h.isInfix
    · intro h; rw [List.eq_nil_of_infix_nil h]
  | cons c s ih =>
    simp only [containsChars, Bool.or_eq_true, hasPrefixChars_iff, ih]
    rw [List.infix_cons_iff]

theorem stringsContains_iff (s sub : String) : stringsContains s sub = true ↔ Substr sub s :=
  containsChars_iff s.data sub.data

theorem matchesAny_iff (key : String) (fs : List String) :
    matchesAny key fs = true ↔ ∃ f ∈ fs, Substr f key := by
  induction fs with
  | nil => simp [matchesAny]
  | cons f fs ih =>
    simp only [matchesAny, List.mem_cons, exists_eq_or_imp, ← stringsContains_iff]
    by_cases h : stringsContains key f = true
    · simp [h]
    · simp [h, ih, stringsContains_iff]

theorem mapLookup_isSome_iff (regions : Catalog) (key : String) :
    (mapLookup regions key).isSome = true ↔ InCatalog regions key := by
  induction regions with
  | nil => simp [mapLookup, InCatalog]
  | cons kv rest ih =>
    obtain ⟨k, v⟩ := kv
    unfold InCatalog at *
    by_cases h : k = key
    · subst h
      simp only [mapLookup, if_true, Option.isSome_some, true_iff]
      exact ⟨v, List.mem_cons_self _ _⟩
    · simp only [mapLookup, if_neg h, ih, List.mem_cons, Prod.mk.injEq]
      constructor
      · rintro ⟨r, hr⟩; exact ⟨r, Or.inr hr⟩
      · rintro ⟨r, hr | hr⟩
        · exact absurd hr.1.symm h
        · exact ⟨r, hr⟩

/-- Induction along the parent chain. -/
theorem Distributor.chain_induction {motive : Distributor → Prop}
    (root : ∀ n perms, motive (.mk n perms none))
    (child : ∀ n perms p, motive p → motive (.mk n perms (some p))) :
    ∀ d, motive d
  | .mk n perms none => root n perms
  | .mk n perms (some p) => child n perms p (Distributor.chain_induction root child p)

theorem hasPermission_invalid (d : Distributor) (key : String) (regions : Catalog)
    (h : ¬ InCatalog regions key) :
    hasPermission d key regions = (false, [invalidRegionLine key]) := by
  rw [← mapLookup_isSome_iff] at h
  obtain ⟨n, perms, parent⟩ := d
  unfold hasPermission
  simp [h]

theorem hasPermission_excluded (d : Distributor) (key : String) (regions : Catalog)
    (hk : InCatalog regions key) (h : Excludes d key) :
    hasPermission d key regions = (false, []) := by
  rw [← mapLookup_isSome_iff] at hk
  obtain ⟨n, perms, parent⟩ := d
  have hx : matchesAny key perms.Exclusions = true := (matchesAny_iff _ _).2 h
  unfold hasPermission
  simp [hk, hx]

theorem hasPermission_included (d : Distributor) (key : String) (regions : Catalog)
    (hk : InCatalog regions key) (hx : ¬ Excludes d key) (h : Includes d key) :
    hasPermission d key regions = (true, []) := by
  rw [← mapLookup_isSome_iff] at hk
  obtain ⟨n, perms, parent⟩ := d
  have hx2 : matchesAny key perms.Exclusions = false := by
    rw [← Bool.not_eq_true, matchesAny_iff]; exact hx
  have hi : matchesAny key perms.Inclusions = true := (matchesAny_iff _ _).2 h
  unfold hasPermission
  simp [hk, hx2, hi]

theorem hasPermission_silent_child (n : String) (perms : Permissions) (p : Distributor)
    (key : String) (regions : Catalog) (h : Silent (.mk n perms (some p)) key) :
    hasPermission (.mk n perms (some p)) key regions = hasPermission p key regions := by
  have hx2 : matchesAny key perms.Exclusions = false := by
    rw [← Bool.not_eq_true, matchesAny_iff]; exact h.2
  have hi : matchesAny key perms.Inclusions = false := by
    rw [← Bool.not_eq_true, matchesAny_iff]; exact h.1
  by_cases hk : InCatalog regions key
  · have hk2 := (mapLookup_isSome_iff _ _).2 hk
    conv_lhs => unfold hasPermission
    simp [hk2, hx2, hi]
  · rw [hasPermission_invalid _ _ _ hk, hasPermission_invalid _ _ _ hk]

theorem hasPermission_silent_root (n : String) (perms : Permissions)
    (key : String) (regions : Catalog) (h : Silent (.mk n perms none) key) :
    (hasPermission (.mk n perms none) key regions).1 = false := by
  have hx2 : matchesAny key perms.Exclusions = false := by
    rw [← Bool.not_eq_true, matchesAny_iff]; exact h.2
  have hi : matchesAny key perms.Inclusions = false := by
    rw [← Bool.not_eq_true, matchesAny_iff]; exact h.1
  unfold hasPermission
  by_cases hk : (mapLookup regions key).isSome = true <;> simp [hk, hx2, hi]

/-- Some level of the chain `l` resolves `key` to a grant, all earlier levels being
silent. -/
theorem firstLevel_cons (a : Distributor) (l : List Distributor) (key : String) :
    (∃ (i : Nat) (b : Distributor), (a :: l)[i]? = some b ∧ Includes b key ∧ ¬ Excludes b key ∧
        ∀ (j : Nat) (c : Distributor), j < i → (a :: l)[j]? = some c → Silent c key) ↔
      (Includes a key ∧ ¬ Excludes a key) ∨
        (Silent a key ∧ ∃ (i : Nat) (b : Distributor), l[i]? = some b ∧ Includes b key ∧ ¬ Excludes b key ∧
          ∀ (j : Nat) (c : Distributor), j < i → l[j]? = some c → Silent c key) := by
  constructor
  · rintro ⟨i, b, hb, hinc, hexc, hs⟩
    cases i with
    | zero =>
      simp only [List.getElem?_cons_zero, Option.some.injEq] at hb
      subst hb
      exact Or.inl ⟨hinc, hexc⟩
    | succ i =>
      right
      refine ⟨hs 0 a (Nat.succ_pos i) (by simp), i, b, by simpa using hb, hinc, hexc, ?_⟩
      intro j c hj hc
      exact hs (j + 1) c (Nat.succ_lt_succ hj) (by simpa using hc)
  · rintro (⟨hinc, hexc⟩ | ⟨hsil, i, b, hb, hinc, hexc, hs⟩)
    · exact ⟨0, a, by simp, hinc, hexc, fun j c hj _ => absurd hj (Nat.not_lt_zero j)⟩
    · refine ⟨i + 1, b, by simpa using hb, hinc, hexc, ?_⟩
      intro j c hj hc
      cases j with
      | zero =>
        simp only [List.getElem?_cons_zero, Option.some.injEq] at hc
        subst hc
        exact hsil
      | succ j => exact hs j c (Nat.lt_of_succ_lt_succ hj) (by simpa using hc)

theorem hasPermission_level_cases (d : Distributor) (key : String) (regions : Catalog)
    (hk : InCatalog regions key) :
    (Excludes d key ∧ hasPermission d key regions = (false, [])) ∨
    (¬ Excludes d key ∧ Includes d key ∧ hasPermission d key regions = (true, [])) ∨
    Silent d key := by
  by_cases hx : Excludes d key
  · exact Or.inl ⟨hx, hasPermission_excluded d key regions hk hx⟩
  · by_cases hi : Includes d key
    · exact Or.inr (Or.inl ⟨hx, hi, hasPermission_included d key regions hk hx hi⟩)
    · exact Or.inr (Or.inr ⟨hi, hx⟩)

/-- C1. For every catalog, key and distributor, `hasPermission` returns `true` if and
only if the key is a key of the catalog and some level `i` of the ancestor chain (the
distributor itself is level 0) has an inclusion fragment that is a substring of the key
and no exclusion fragment that is one, every level `j < i` being silent on the key. -/
theorem hasPermission_true_iff_first_resolving_level
    (d : Distributor) (key : String) (regions : Catalog) :
    (hasPermission d key regions).1 = true ↔
      InCatalog regions key ∧
        ∃ (i : Nat) (a : Distributor), (ancestors d)[i]? = some a ∧ Includes a key ∧ ¬ Excludes a key ∧
          ∀ (j : Nat) (b : Distributor), j < i → (ancestors d)[j]? = some b → Silent b key := by
  by_cases hk : InCatalog regions key
  swap
  · rw [hasPermission_invalid d key regions hk]
    simp [hk]
  simp only [hk, true_and]
  induction d using Distributor.chain_induction with
  | root n perms =>
    simp only [ancestors]
    rw [firstLevel_cons]
    rcases hasPermission_level_cases (.mk n perms none) key regions hk with
      ⟨hx, h⟩ | ⟨hx, hi, h⟩ | hs
    · rw [h]; simp [hx, Silent]
    · rw [h]; simp [hx, hi]
    · rw [hasPermission_silent_root n perms key regions hs]
      simp [hs.1, hs]
  | child n perms p ih =>
    simp only [ancestors]
    rw [firstLevel_cons]
    rcases hasPermission_level_cases (.mk n perms (some p)) key regions hk with
      ⟨hx, h⟩ | ⟨hx, hi, h⟩ | hs
    · rw [h]; simp [hx, Silent]
    · rw [h]; simp [hx, hi]
    · rw [hasPermission_silent_child n perms p key regions hs, ih]
      simp [hs.1, hs]

/-- C2. Exclusion precedence: if the key contains one of `d`'s own exclusion fragments
and one of `d`'s own inclusion fragments, `hasPermission` returns `false`, whatever the
parent chain of `d` and whatever the catalog. -/
theorem hasPermission_exclusion_precedence
    (d : Distributor) (key : String) (regions : Catalog)
    (hexc : Excludes d key) (_hinc : Includes d key) :
    (hasPermission d key regions).1 = false := by
  by_cases hk : InCatalog regions key
  · rw [hasPermission_excluded d key regions hk hexc]
  · rw [hasPermission_invalid d key regions hk]

/-- C3. Fallback correctness: if `child` has parent `parent` and no fragment of the
inclusions or exclusions of `child` is a substring of the key, `hasPermission` on `child`
gives what it gives on `parent` (the same boolean, and the same printed lines). -/
theorem hasPermission_fallback
    (child parent : Distributor) (key : String) (regions : Catalog)
    (hparent : child.Parent = some parent) (hsilent : Silent child key) :
    hasPermission child key regions = hasPermission parent key regions := by
  obtain ⟨n, perms, q⟩ := child
  simp only [Distributor.Parent] at hparent
  subst hparent
  exact hasPermission_silent_child n perms parent key regions hsilent

/-- C4. Invalid region: for a key that is not a key of the catalog, `hasPermission`
returns `false` for every distributor, whatever its lists and its parent chain. -/
theorem hasPermission_invalid_region
    (d : Distributor) (key : String) (regions : Catalog)
    (hk : ¬ InCatalog regions key) :
    (hasPermission d key regions).1 = false := by
  rw [hasPermission_invalid d key regions hk]

/-! ### Deciding the vocabulary on concrete inputs -/

theorem Excludes_iff_matchesAny (d : Distributor) (key : String) :
    Excludes d key ↔ matchesAny key d.Permissions.Exclusions = true :=
  (matchesAny_iff key d.Permissions.Exclusions).symm

theorem Includes_iff_matchesAny (d : Distributor) (key : String) :
    Includes d key ↔ matchesAny key d.Permissions.Inclusions = true :=
  (matchesAny_iff key d.Permissions.Inclusions).symm

theorem Silent_iff_matchesAny (d : Distributor) (key : String) :
    Silent d key ↔ matchesAny key d.Permissions.Inclusions = false ∧
      matchesAny key d.Permissions.Exclusions = false := by
  simp only [Silent, Includes_iff_matchesAny, Excludes_iff_matchesAny, Bool.not_eq_true]

theorem InCatalog_iff_lookup (regions : Catalog) (key : String) :
    InCatalog regions key ↔ (mapLookup regions key).isSome = true :=
  (mapLookup_isSome_iff regions key).symm

/-- Witness of C2: `distributor2` includes `INDIA` and excludes `TAMILNADU-INDIA`. -/
theorem hasPermission_exclusion_precedence_witness :
    Excludes distributor2 "CHENNAI-TAMILNADU-INDIA" ∧
    Includes distributor2 "CHENNAI-TAMILNADU-INDIA" ∧
    (hasPermission distributor2 "CHENNAI-TAMILNADU-INDIA" sampleRegions).1 = false :=
  have hexc : Excludes distributor2 "CHENNAI-TAMILNADU-INDIA" :=
    (Excludes_iff_matchesAny _ _).2 (by decide)
  have hinc : Includes distributor2 "CHENNAI-TAMILNADU-INDIA" :=
    (Includes_iff_matchesAny _ _).2 (by decide)
  ⟨hexc, hinc, hasPermission_exclusion_precedence _ _ sampleRegions hexc hinc⟩

/-- Witness of C3: a child without rules under `distributor1`. -/
theorem hasPermission_fallback_witness :
    silentChild.Parent = some distributor1 ∧
    Silent silentChild "CHICAGO-ILLINOIS-UNITEDSTATES" ∧
    hasPermission silentChild "CHICAGO-ILLINOIS-UNITEDSTATES" sampleRegions =
      hasPermission distributor1 "CHICAGO-ILLINOIS-UNITEDSTATES" sampleRegions ∧
    hasPermission distributor1 "CHICAGO-ILLINOIS-UNITEDSTATES" sampleRegions = (true, []) :=
  have hs : Silent silentChild "CHICAGO-ILLINOIS-UNITEDSTATES" :=
    (Silent_iff_matchesAny _ _).2 (by decide)
  ⟨rfl, hs, hasPermission_fallback silentChild distributor1 _ sampleRegions rfl hs, by decide⟩

/-- Witness of C4: a key outside the catalog that is itself an inclusion fragment. -/
theorem hasPermission_invalid_region_witness :
    ¬ InCatalog sampleRegions "INDIA" ∧
    Includes distributor1 "INDIA" ∧
    (hasPermission distributor1 "INDIA" sampleRegions).1 = false :=
  have hk : ¬ InCatalog sampleRegions "INDIA" := by
    rw [InCatalog_iff_lookup]; decide
  ⟨hk, (Includes_iff_matchesAny _ _).2 (by decide),
    hasPermission_invalid_region distributor1 "INDIA" sampleRegions hk⟩

/-- C5, as stated, fails: `looseDistributor` includes `NDI`, the key
`MUMBAI-MAHARASHTRA-INDIA` contains `NDI` and none of its exclusion fragments, and
`hasPermission` returns `false`, the key not being a key of the catalog. -/
theorem containment_fails_outside_catalog :
    "NDI" ∈ looseDistributor.Permissions.Inclusions ∧
    Substr "NDI" "MUMBAI-MAHARASHTRA-INDIA" ∧
    ¬ Excludes looseDistributor "MUMBAI-MAHARASHTRA-INDIA" ∧
    hasPermission looseDistributor "MUMBAI-MAHARASHTRA-INDIA" sampleRegions =
      (false, ["Invalid region: MUMBAI-MAHARASHTRA-INDIA"]) := by
  refine ⟨by decide, (stringsContains_iff _ _).1 (by decide), ?_, by decide⟩
  rw [Excludes_iff_matchesAny]
  decide

/-- C5, amended. Containment semantics: if the key is a key of the catalog, `f` is one
of `d`'s inclusion fragments, the key contains `f` as a contiguous substring and
contains none of `d`'s exclusion fragments, `hasPermission` returns `true`; `f` need
not be a whole hyphen-delimited segment of the key. -/
theorem hasPermission_containment
    (d : Distributor) (f key : String) (regions : Catalog)
    (hk : InCatalog regions key)
    (hf : f ∈ d.Permissions.Inclusions) (hsub : Substr f key)
    (hx : ¬ Excludes d key) :
    (hasPermission d key regions).1 = true := by
  rw [hasPermission_included d key regions hk hx ⟨f, hf, hsub⟩]

/-- Witness of C5, amended: the fragment `NDI` against a key ending in `INDIA`. -/
theorem hasPermission_containment_witness :
    InCatalog sampleRegions "CHENNAI-TAMILNADU-INDIA" ∧
    "NDI" ∈ looseDistributor.Permissions.Inclusions ∧
    Substr "NDI" "CHENNAI-TAMILNADU-INDIA" ∧
    ¬ Excludes looseDistributor "CHENNAI-TAMILNADU-INDIA" ∧
    (hasPermission looseDistributor "CHENNAI-TAMILNADU-INDIA" sampleRegions).1 = true :=
  have hk : InCatalog sampleRegions "CHENNAI-TAMILNADU-INDIA" :=
    (InCatalog_iff_lookup _ _).2 (by decide)
  have hf : "NDI" ∈ looseDistributor.Permissions.Inclusions := by decide
  have hsub : Substr "NDI" "CHENNAI-TAMILNADU-INDIA" :=
    (stringsContains_iff _ _).1 (by decide)
  have hx : ¬ Excludes looseDistributor "CHENNAI-TAMILNADU-INDIA" := by
    rw [Excludes_iff_matchesAny]; decide
  ⟨hk, hf, hsub, hx,
    hasPermission_containment looseDistributor "NDI" _ sampleRegions hk hf hsub hx⟩

theorem hasPermission_chain_silent (d : Distributor) (key : String) (regions : Catalog)
    (h : ∀ a ∈ ancestors d, Silent a key) :
    (hasPermission d key regions).1 = false := by
  induction d using Distributor.chain_induction with
  | root n perms =>
    exact hasPermission_silent_root n perms key regions
      (h _ (by simp [ancestors]))
  | child n perms p ih =>
    rw [hasPermission_silent_child n perms p key regions (h _ (by simp [ancestors]))]
    exact ih (fun a ha => h a (by simp [ancestors, ha]))

/-- C6. Default deny: for a distributor without parent whose rules are silent on the
key, `hasPermission` returns `false`; more generally it returns `false` when every level
of the ancestor chain is silent on the key. -/
theorem hasPermission_default_deny
    (d : Distributor) (key : String) (regions : Catalog) :
    (d.Parent = none → Silent d key → (hasPermission d key regions).1 = false) ∧
    ((∀ a ∈ ancestors d, Silent a key) → (hasPermission d key regions).1 = false) := by
  refine ⟨?_, hasPermission_chain_silent d key regions⟩
  intro hroot hs
  obtain ⟨n, perms, q⟩ := d
  simp only [Distributor.Parent] at hroot
  subst hroot
  exact hasPermission_silent_root n perms key regions hs

/-- Witness of C6: `distributor1` (no parent) and the chain of `distributor3` are silent
on a key of the catalog that none of their fragments occurs in. -/
theorem hasPermission_default_deny_witness :
    InCatalog [("PARIS-IDF-FRANCE", ⟨"France", "IDF", "Paris"⟩)] "PARIS-IDF-FRANCE" ∧
    (distributor1.Parent = none ∧ Silent distributor1 "PARIS-IDF-FRANCE" ∧
      (hasPermission distributor1 "PARIS-IDF-FRANCE"
        [("PARIS-IDF-FRANCE", ⟨"France", "IDF", "Paris"⟩)]).1 = false) ∧
    ((∀ a ∈ ancestors distributor3, Silent a "PARIS-IDF-FRANCE") ∧
      (hasPermission distributor3 "PARIS-IDF-FRANCE"
        [("PARIS-IDF-FRANCE", ⟨"France", "IDF", "Paris"⟩)]).1 = false) :=
  have hs1 : Silent distributor1 "PARIS-IDF-FRANCE" :=
    (Silent_iff_matchesAny _ _).2 (by decide)
  have hs2 : Silent distributor2 "PARIS-IDF-FRANCE" :=
    (Silent_iff_matchesAny _ _).2 (by decide)
  have hs3 : Silent distributor3 "PARIS-IDF-FRANCE" :=
    (Silent_iff_matchesAny _ _).2 (by decide)
  have hall : ∀ a ∈ ancestors distributor3, Silent a "PARIS-IDF-FRANCE" := by
    intro a ha
    simp only [ancestors, distributor3, distributor2, distributor1, List.mem_cons,
      List.mem_singleton, List.not_mem_nil, or_false] at ha
    rcases ha with rfl | rfl | rfl
    · exact hs3
    · exact hs2
    · exact hs1
  ⟨(InCatalog_iff_lookup _ _).2 (by decide),
    ⟨rfl, hs1, (hasPermission_default_deny distributor1 _ _).1 rfl hs1⟩,
    ⟨hall, (hasPermission_default_deny distributor3 _ _).2 hall⟩⟩

/-- C7. The first level that resolves wins: two distributors with the same inclusion and
exclusion lists and arbitrary parents get the same result from `hasPermission` (boolean
and printed lines) on every key that contains a fragment of their own lists. -/
theorem hasPermission_own_level_wins
    (d1 d2 : Distributor) (key : String) (regions : Catalog)
    (hincl : d1.Permissions.Inclusions = d2.Permissions.Inclusions)
    (hexcl : d1.Permissions.Exclusions = d2.Permissions.Exclusions)
    (h : Includes d1 key ∨ Excludes d1 key) :
    hasPermission d1 key regions = hasPermission d2 key regions := by
  have hi : Includes d1 key ↔ Includes d2 key := by unfold Includes; rw [hincl]
  have hx : Excludes d1 key ↔ Excludes d2 key := by unfold Excludes; rw [hexcl]
  by_cases hk : InCatalog regions key
  · by_cases hx1 : Excludes d1 key
    · rw [hasPermission_excluded d1 key regions hk hx1,
        hasPermission_excluded d2 key regions hk (hx.1 hx1)]
    · have hi1 : Includes d1 key := h.resolve_right hx1
      rw [hasPermission_included d1 key regions hk hx1 hi1,
        hasPermission_included d2 key regions hk (fun h2 => hx1 (hx.2 h2)) (hi.1 hi1)]
  · rw [hasPermission_invalid d1 key regions hk, hasPermission_invalid d2 key regions hk]

/-- Witness of C7: the inclusion `HUBLI-KARNATAKA-INDIA` without parent and under
`distributor1`, whose exclusion `KARNATAKA-INDIA` denies the key to `distributor1` and
does not turn the grant of the child into a deny. -/
theorem hasPermission_own_level_wins_witness :
    (Includes hubliOrphan "HUBLI-KARNATAKA-INDIA" ∨
      Excludes hubliOrphan "HUBLI-KARNATAKA-INDIA") ∧
    hasPermission hubliOrphan "HUBLI-KARNATAKA-INDIA" sampleRegions =
      hasPermission hubliUnderDistributor1 "HUBLI-KARNATAKA-INDIA" sampleRegions ∧
    hasPermission hubliUnderDistributor1 "HUBLI-KARNATAKA-INDIA" sampleRegions = (true, []) ∧
    hasPermission distributor1 "HUBLI-KARNATAKA-INDIA" sampleRegions = (false, []) :=
  have h : Includes hubliOrphan "HUBLI-KARNATAKA-INDIA" ∨
      Excludes hubliOrphan "HUBLI-KARNATAKA-INDIA" :=
    Or.inl ((Includes_iff_matchesAny _ _).2 (by decide))
  ⟨h, hasPermission_own_level_wins hubliOrphan hubliUnderDistributor1 _ sampleRegions
      rfl rfl h,
    by decide, by decide⟩

theorem matchesAny_perm (key : String) {l l2 : List String} (h : l.Perm l2) :
    matchesAny key l = matchesAny key l2 := by
  rw [Bool.eq_iff_iff, matchesAny_iff, matchesAny_iff]
  constructor
  · rintro ⟨f, hf, hs⟩; exact ⟨f, h.mem_iff.1 hf, hs⟩
  · rintro ⟨f, hf, hs⟩; exact ⟨f, h.mem_iff.2 hf, hs⟩

/-- C8. Order independence: replacing, at any levels of the ancestor chain, the inclusion
list by a permutation of itself and the exclusion list by a permutation of itself does
not change the result of `hasPermission` (boolean and printed lines). -/
theorem hasPermission_order_independent
    (d1 d2 : Distributor) (key : String) (regions : Catalog)
    (h : SameUpToOrder d1 d2) :
    hasPermission d1 key regions = hasPermission d2 key regions := by
  induction h with
  | root hi he =>
    unfold hasPermission
    simp only [matchesAny_perm key hi, matchesAny_perm key he]
  | child hi he _ ih =>
    unfold hasPermission
    simp only [matchesAny_perm key hi, matchesAny_perm key he, ih]

/-- Witness of C8: `distributor2` over `distributor1`, with both lists of the parent
reversed. -/
theorem hasPermission_order_independent_witness :
    SameUpToOrder distributor2 distributor2Reordered ∧
    hasPermission distributor2 "CHICAGO-ILLINOIS-UNITEDSTATES" sampleRegions =
      hasPermission distributor2Reordered "CHICAGO-ILLINOIS-UNITEDSTATES" sampleRegions ∧
    hasPermission distributor2 "CHICAGO-ILLINOIS-UNITEDSTATES" sampleRegions = (true, []) :=
  have h : SameUpToOrder distributor2 distributor2Reordered :=
    SameUpToOrder.child (List.Perm.refl _) (List.Perm.refl _)
      (SameUpToOrder.root (List.Perm.swap _ _ _) (List.Perm.swap _ _ _))
  ⟨h, hasPermission_order_independent _ _ _ sampleRegions h, by decide⟩

/-- C9. Diagnostic semantics: a call of `hasPermission` prints exactly the one line
`Invalid region: <key>` and returns `false` when the key is not a key of the catalog, and
prints nothing when the key is a key of the catalog. -/
theorem hasPermission_diagnostic
    (d : Distributor) (key : String) (regions : Catalog) :
    (¬ InCatalog regions key →
      hasPermission d key regions = (false, ["Invalid region: " ++ key])) ∧
    (InCatalog regions key → (hasPermission d key regions).2 = []) := by
  refine ⟨hasPermission_invalid d key regions, fun hk => ?_⟩
  induction d using Distributor.chain_induction with
  | root n perms =>
    rcases hasPermission_level_cases (.mk n perms none) key regions hk with
      ⟨_, h⟩ | ⟨_, _, h⟩ | hs
    · rw [h]
    · rw [h]
    · have hx2 : matchesAny key perms.Exclusions = false :=
        ((Silent_iff_matchesAny _ _).1 hs).2
      have hi : matchesAny key perms.Inclusions = false :=
        ((Silent_iff_matchesAny _ _).1 hs).1
      unfold hasPermission
      simp [(InCatalog_iff_lookup _ _).1 hk, hx2, hi]
  | child n perms p ih =>
    rcases hasPermission_level_cases (.mk n perms (some p)) key regions hk with
      ⟨_, h⟩ | ⟨_, _, h⟩ | hs
    · rw [h]
    · rw [h]
    · rw [hasPermission_silent_child n perms p key regions hs]
      exact ih

/-- Witness of C9: `distributor3`, three levels deep, on an unknown key and on a key of
the catalog that is denied at the level of its parent. -/
theorem hasPermission_diagnostic_witness :
    (¬ InCatalog sampleRegions "ATLANTIS" ∧
      hasPermission distributor3 "ATLANTIS" sampleRegions =
        (false, ["Invalid region: " ++ "ATLANTIS"])) ∧
    (InCatalog sampleRegions "CHENNAI-TAMILNADU-INDIA" ∧
      (hasPermission distributor3 "CHENNAI-TAMILNADU-INDIA" sampleRegions).2 = [] ∧
      (hasPermission distributor3 "CHENNAI-TAMILNADU-INDIA" sampleRegions).1 = false) :=
  have hk : ¬ InCatalog sampleRegions "ATLANTIS" := by
    rw [InCatalog_iff_lookup]; decide
  have hk2 : InCatalog sampleRegions "CHENNAI-TAMILNADU-INDIA" :=
    (InCatalog_iff_lookup _ _).2 (by decide)
  ⟨⟨hk, (hasPermission_diagnostic distributor3 _ sampleRegions).1 hk⟩,
    ⟨hk2, (hasPermission_diagnostic distributor3 _ sampleRegions).2 hk2, by decide⟩⟩

/-- C10. Hoisting the validity check preserves behaviour: `hasPermission`, which checks
catalog membership at every ancestor level, returns the same boolean and prints the same
lines as `hasPermissionHoisted`, which checks it once and then walks the chain. -/
theorem hasPermission_eq_hoisted
    (d : Distributor) (key : String) (regions : Catalog) :
    hasPermission d key regions = hasPermissionHoisted d key regions := by
  induction d using Distributor.chain_induction with
  | root n perms =>
    unfold hasPermission hasPermissionHoisted walkAncestors
    by_cases hk : (mapLookup regions key).isSome = true <;>
      by_cases hx : matchesAny key perms.Exclusions = true <;>
      by_cases hi : matchesAny key perms.Inclusions = true <;>
      simp [hk, hx, hi]
  | child n perms p ih =>
    unfold hasPermissionHoisted at ih ⊢
    conv_lhs => unfold hasPermission
    conv_rhs => unfold walkAncestors
    simp only [ih]
    by_cases hk : (mapLookup regions key).isSome = true <;>
      by_cases hx : matchesAny key perms.Exclusions = true <;>
      by_cases hi : matchesAny key perms.Inclusions = true <;>
      simp [hk, hx, hi]

/-! ## Region keys -/

theorem stringsToUpper_append (up : Char → Char) (a b : String) :
    stringsToUpper up (a ++ b) = stringsToUpper up a ++ stringsToUpper up b := by
  apply String.ext
  simp [stringsToUpper, String.data_append]

theorem stringsToUpper_hyphen (up : Char → Char) (hh : up '-' = '-') :
    stringsToUpper up "-" = "-" := by
  apply String.ext
  show List.map up ['-'] = ['-']
  simp [hh]

theorem regionKey_eq_specKey (up : Char → Char) (hh : up '-' = '-')
    (country state city : String) :
    regionKey up country state city =
      specKey up { Country := country, State := state, City := city } := by
  simp only [regionKey, specKey, stringsToUpper_append, stringsToUpper_hyphen up hh]

theorem specKey_data (up : Char → Char) (r : Region) :
    (specKey up r).data =
      r.City.data.map up ++ '-' :: (r.State.data.map up ++ '-' :: r.Country.data.map up) := by
  simp [specKey, stringsToUpper, String.data_append]

/-- Two lists that split at a separator absent from both heads have equal heads and
equal tails. -/
theorem split_at_separator {sep : Char} :
    ∀ (a a2 b b2 : List Char), sep ∉ a → sep ∉ a2 →
      a ++ sep :: b = a2 ++ sep :: b2 → a = a2 ∧ b = b2
  | [], [], b, b2, _, _, h => by simpa using h
  | [], c :: a2, b, b2, _, h2, h => by
    simp only [List.nil_append, List.cons_append, List.cons.injEq] at h
    exact absurd (h.1 ▸ List.mem_cons_self _ _) h2
  | c :: a, [], b, b2, h1, _, h => by
    simp only [List.nil_append, List.cons_append, List.cons.injEq] at h
    exact absurd (h.1 ▸ List.mem_cons_self _ _) h1
  | c :: a, c2 :: a2, b, b2, h1, h2, h => by
    simp only [List.cons_append, List.cons.injEq] at h
    have ih := split_at_separator a a2 b b2
      (fun hm => h1 (List.mem_cons_of_mem _ hm)) (fun hm => h2 (List.mem_cons_of_mem _ hm)) h.2
    exact ⟨by rw [h.1, ih.1], ih.2⟩

theorem specKey_injective_on (up : Char → Char) (r1 r2 : Region)
    (h1 : UpperFixed up r1) (h2 : UpperFixed up r2)
    (hy1 : HyphenFree r1) (hy2 : HyphenFree r2)
    (h : specKey up r1 = specKey up r2) : r1 = r2 := by
  have hd := congrArg String.data h
  rw [specKey_data, specKey_data] at hd
  have f1 : ∀ s : String, stringsToUpper up s = s → s.data.map up = s.data := by
    intro s hs
    have := congrArg String.data hs
    simpa [stringsToUpper] using this
  rw [f1 _ h1.1, f1 _ h1.2.1, f1 _ h1.2.2, f1 _ h2.1, f1 _ h2.2.1, f1 _ h2.2.2] at hd
  obtain ⟨hc, hrest⟩ := split_at_separator _ _ _ _ hy1.1 hy2.1 hd
  obtain ⟨hs, hco⟩ := split_at_separator _ _ _ _ hy1.2 hy2.2 hrest
  obtain ⟨co1, st1, ci1⟩ := r1
  obtain ⟨co2, st2, ci2⟩ := r2
  simp only at hc hs hco
  rw [String.ext hc, String.ext hs, String.ext hco]

/-- C11, as stated, fails: two regions that differ only in the case of a letter, and two
regions that differ only in where a hyphen stands, are different regions with the same
key. -/
theorem regionKey_not_injective :
    ((⟨"India", "Karnataka", "Hubli"⟩ : Region) ≠ ⟨"INDIA", "Karnataka", "Hubli"⟩ ∧
      regionKey asciiToUpper "India" "Karnataka" "Hubli" =
        regionKey asciiToUpper "INDIA" "Karnataka" "Hubli") ∧
    ((⟨"X", "B-C", "A"⟩ : Region) ≠ ⟨"X", "C", "A-B"⟩ ∧
      regionKey asciiToUpper "X" "B-C" "A" = regionKey asciiToUpper "X" "C" "A-B") := by
  decide

/-- C11, amended. For two regions whose fields are left unchanged by uppercasing and
whose city and state contain no hyphen, the regions are equal if and only if their keys
are equal. -/
theorem region_eq_iff_regionKey_eq
    (up : Char → Char) (hh : up '-' = '-') (r1 r2 : Region)
    (hfix1 : UpperFixed up r1) (hfix2 : UpperFixed up r2)
    (hy1 : HyphenFree r1) (hy2 : HyphenFree r2) :
    r1 = r2 ↔
      regionKey up r1.Country r1.State r1.City = regionKey up r2.Country r2.State r2.City := by
  constructor
  · intro h; rw [h]
  · intro h
    rw [regionKey_eq_specKey up hh, regionKey_eq_specKey up hh] at h
    exact specKey_injective_on up r1 r2 hfix1 hfix2 hy1 hy2 h

/-- Witness of C11, amended: two uppercase regions of the same state. -/
theorem region_eq_iff_regionKey_eq_witness :
    asciiToUpper '-' = '-' ∧
    UpperFixed asciiToUpper ⟨"INDIA", "KARNATAKA", "HUBLI"⟩ ∧
    UpperFixed asciiToUpper ⟨"INDIA", "KARNATAKA", "BANGALORE"⟩ ∧
    HyphenFree ⟨"INDIA", "KARNATAKA", "HUBLI"⟩ ∧
    HyphenFree ⟨"INDIA", "KARNATAKA", "BANGALORE"⟩ ∧
    ((⟨"INDIA", "KARNATAKA", "HUBLI"⟩ : Region) = ⟨"INDIA", "KARNATAKA", "BANGALORE"⟩ ↔
      regionKey asciiToUpper "INDIA" "KARNATAKA" "HUBLI" =
        regionKey asciiToUpper "INDIA" "KARNATAKA" "BANGALORE") :=
  ⟨by decide, by decide, by decide, by decide, by decide,
    region_eq_iff_regionKey_eq asciiToUpper (by decide)
      ⟨"INDIA", "KARNATAKA", "HUBLI"⟩ ⟨"INDIA", "KARNATAKA", "BANGALORE"⟩
      (by decide) (by decide) (by decide) (by decide)⟩

/-! ## Loading the catalog -/

theorem mem_mapInsert (m : Catalog) (k : String) (v : Region) (e : String × Region)
    (h : e ∈ mapInsert m k v) : e = (k, v) ∨ e ∈ m := by
  induction m with
  | nil => simpa [mapInsert] using h
  | cons kv rest ih =>
    obtain ⟨k2, v2⟩ := kv
    by_cases hk : k2 = k
    · simp only [mapInsert, if_pos hk, List.mem_cons] at h
      rcases h with h | h
      · exact Or.inl h
      · exact Or.inr (List.mem_cons_of_mem _ h)
    · simp only [mapInsert, if_neg hk, List.mem_cons] at h
      rcases h with h | h
      · exact Or.inr (h ▸ List.mem_cons_self _ _)
      · rcases ih h with h | h
        · exact Or.inl h
        · exact Or.inr (List.mem_cons_of_mem _ h)

theorem InCatalog_mapInsert (m : Catalog) (k : String) (v : Region) (key : String) :
    InCatalog (mapInsert m k v) key ↔ key = k ∨ InCatalog m key := by
  induction m with
  | nil => simp [mapInsert, InCatalog]
  | cons kv rest ih =>
    obtain ⟨k2, v2⟩ := kv
    unfold InCatalog at ih ⊢
    by_cases hk : k2 = k
    · subst hk
      simp only [mapInsert, if_true, List.mem_cons, Prod.mk.injEq]
      constructor
      · rintro ⟨r, ⟨h, _⟩ | h⟩
        · exact Or.inl h
        · exact Or.inr ⟨r, Or.inr h⟩
      · rintro (h | ⟨r, ⟨h, _⟩ | h⟩)
        · exact ⟨v, Or.inl ⟨h, rfl⟩⟩
        · exact ⟨v, Or.inl ⟨h, rfl⟩⟩
        · exact ⟨r, Or.inr h⟩
    · simp only [mapInsert, if_neg hk, List.mem_cons, Prod.mk.injEq]
      constructor
      · rintro ⟨r, ⟨h, h2⟩ | h⟩
        · exact Or.inr ⟨r, Or.inl ⟨h, h2⟩⟩
        · rcases ih.1 ⟨r, h⟩ with h3 | ⟨r2, h3⟩
          · exact Or.inl h3
          · exact Or.inr ⟨r2, Or.inr h3⟩
      · rintro (h | ⟨r, ⟨h, h2⟩ | h⟩)
        · obtain ⟨r, hr⟩ := ih.2 (Or.inl h)
          exact ⟨r, Or.inr hr⟩
        · exact ⟨r, Or.inl ⟨h, h2⟩⟩
        · obtain ⟨r2, hr⟩ := ih.2 (Or.inr ⟨r, h⟩)
          exact ⟨r2, Or.inr hr⟩

/-- One unfolding of the loop on a record with at least three fields. -/
theorem loadRecords_cons_long (up : Char → Char) (country state city : String)
    (more : List String) (rest : List (List String)) (regions : Catalog) :
    loadRecords up ((country :: state :: city :: more) :: rest) regions =
      loadRecords up rest
        (mapInsert regions (regionKey up country state city)
          { Country := country, State := state, City := city }) := by
  simp [loadRecords]

/-- One unfolding of the loop on a record with fewer than three fields. -/
theorem loadRecords_cons_short (up : Char → Char) (record : List String)
    (rest : List (List String)) (regions : Catalog) (h : record.length < 3) :
    loadRecords up (record :: rest) regions = loadRecords up rest regions := by
  match record, h with
  | [], _ => simp [loadRecords]
  | [_], _ => simp [loadRecords]
  | [_, _], _ => simp [loadRecords]
  | _ :: _ :: _ :: _, h => simp at h; omega

/-- Every record is short or starts with three fields. -/
theorem record_cases (record : List String) :
    record.length < 3 ∨
      ∃ country state city more, record = country :: state :: city :: more := by
  match record with
  | [] => left; simp
  | [_] => left; simp
  | [_, _] => left; simp
  | c :: s0 :: ci :: more => exact Or.inr ⟨c, s0, ci, more, rfl⟩

theorem loadRecords_entries (up : Char → Char) (P : String × Region → Prop)
    (hP : ∀ country state city,
      P (regionKey up country state city, ⟨country, state, city⟩))
    (records : List (List String)) :
    ∀ regions : Catalog, (∀ e ∈ regions, P e) →
      ∀ e ∈ loadRecords up records regions, P e := by
  induction records with
  | nil => intro regions h; simpa [loadRecords] using h
  | cons record rest ih =>
    intro regions h
    rcases record_cases record with hshort | ⟨c, s0, ci, more, rfl⟩
    · rw [loadRecords_cons_short up record rest regions hshort]
      exact ih regions h
    · rw [loadRecords_cons_long]
      apply ih
      intro e he
      rcases mem_mapInsert _ _ _ _ he with rfl | he
      · exact hP c s0 ci
      · exact h e he

theorem InCatalog_loadRecords (up : Char → Char) (records : List (List String)) :
    ∀ (regions : Catalog) (key : String),
      InCatalog (loadRecords up records regions) key ↔
        InCatalog regions key ∨
          ∃ country state city more, (country :: state :: city :: more) ∈ records ∧
            stringsToUpper up (city ++ "-" ++ state ++ "-" ++ country) = key := by
  induction records with
  | nil => intro regions key; simp [loadRecords]
  | cons record rest ih =>
    intro regions key
    rcases record_cases record with hshort | ⟨c, s0, ci, more, rfl⟩
    · rw [loadRecords_cons_short up record rest regions hshort, ih]
      constructor
      · rintro (h | ⟨c, s0, ci, more, hm, hk⟩)
        · exact Or.inl h
        · exact Or.inr ⟨c, s0, ci, more, List.mem_cons_of_mem _ hm, hk⟩
      · rintro (h | ⟨c, s0, ci, more, hm, hk⟩)
        · exact Or.inl h
        · rcases List.mem_cons.1 hm with hm | hm
          · rw [← hm] at hshort; simp at hshort; omega
          · exact Or.inr ⟨c, s0, ci, more, hm, hk⟩
    · rw [loadRecords_cons_long, ih, InCatalog_mapInsert]
      constructor
      · rintro ((h | h) | ⟨c2, s2, ci2, more2, hm, hk⟩)
        · exact Or.inr ⟨c, s0, ci, more, List.mem_cons_self _ _, h.symm⟩
        · exact Or.inl h
        · exact Or.inr ⟨c2, s2, ci2, more2, List.mem_cons_of_mem _ hm, hk⟩
      · rintro (h | ⟨c2, s2, ci2, more2, hm, hk⟩)
        · exact Or.inl (Or.inr h)
        · rcases List.mem_cons.1 hm with hm | hm
          · simp only [List.cons.injEq] at hm
            obtain ⟨rfl, rfl, rfl, _⟩ := hm
            exact Or.inl (Or.inl hk.symm)
          · exact Or.inr ⟨c2, s2, ci2, more2, hm, hk⟩

theorem loadRecords_filter (up : Char → Char) (records : List (List String)) :
    ∀ regions : Catalog,
      loadRecords up (records.filter (fun record => decide (3 ≤ record.length))) regions =
        loadRecords up records regions := by
  induction records with
  | nil => intro regions; rfl
  | cons record rest ih =>
    intro regions
    rcases record_cases record with hshort | ⟨c, s0, ci, more, rfl⟩
    · rw [loadRecords_cons_short up record rest regions hshort,
        List.filter_cons_of_neg (by simpa using hshort), ih]
    · rw [List.filter_cons_of_pos (by simp), loadRecords_cons_long, loadRecords_cons_long, ih]

theorem loadRecords_take (up : Char → Char) (records : List (List String)) :
    ∀ regions : Catalog,
      loadRecords up (records.map (List.take 3)) regions = loadRecords up records regions := by
  induction records with
  | nil => intro regions; rfl
  | cons record rest ih =>
    intro regions
    rcases record_cases record with hshort | ⟨c, s0, ci, more, rfl⟩
    · rw [loadRecords_cons_short up record rest regions hshort, List.map_cons,
        loadRecords_cons_short up _ _ regions
          (by rw [List.length_take]; exact lt_of_le_of_lt (Nat.min_le_right _ _) hshort), ih]
    · rw [List.map_cons]
      show loadRecords up ((c :: s0 :: ci :: List.take 0 more) :: _) regions = _
      rw [loadRecords_cons_long, loadRecords_cons_long, ih]

/-- C12. Catalog self-consistency: `loadRegions` succeeds on every list of parsed
records, and every entry `(key, region)` of its catalog has
`key = uppercase(region.City) + "-" + uppercase(region.State) + "-" +
uppercase(region.Country)`; uppercasing the joined string as a whole, as the code does,
gives the same key as joining the three uppercased fields. The table of `ToUpper` is any
table that keeps the hyphen. -/
theorem loadRegions_self_consistent
    (up : Char → Char) (hh : up '-' = '-') (records : List (List String)) :
    (∃ regions, loadRegions up (.ok records) = .ok regions ∧
      ∀ key region, (key, region) ∈ regions →
        key = stringsToUpper up region.City ++ "-" ++ stringsToUpper up region.State ++
          "-" ++ stringsToUpper up region.Country) ∧
    (∀ country state city : String,
      stringsToUpper up (city ++ "-" ++ state ++ "-" ++ country) =
        stringsToUpper up city ++ "-" ++ stringsToUpper up state ++ "-" ++
          stringsToUpper up country) := by
  refine ⟨⟨loadRecords up records [], rfl, ?_⟩, ?_⟩
  · intro key region hmem
    exact loadRecords_entries up (fun e => e.1 = specKey up e.2)
      (fun country state city => regionKey_eq_specKey up hh country state city)
      records [] (by simp) (key, region) hmem
  · intro country state city
    exact regionKey_eq_specKey up hh country state city

/-- Witness of C12: the hyphen is kept by the ASCII table; the four sample records. -/
theorem loadRegions_self_consistent_witness :
    asciiToUpper '-' = '-' ∧
    loadRegions asciiToUpper (.ok sampleRecords) = .ok sampleRegions ∧
    stringsToUpper asciiToUpper ("Hubli" ++ "-" ++ "Karnataka" ++ "-" ++ "India") =
      stringsToUpper asciiToUpper "Hubli" ++ "-" ++ stringsToUpper asciiToUpper "Karnataka"
        ++ "-" ++ stringsToUpper asciiToUpper "India" :=
  ⟨by decide, congrArg Except.ok (by decide),
    (loadRegions_self_consistent asciiToUpper (by decide) sampleRecords).2
      "India" "Karnataka" "Hubli"⟩

/-- The loop of `loadRegions` alone tolerates malformed rows: a key is in the map it
builds if and only if some record with at least three fields has that key, and the map
is the same when the records with fewer than three fields are removed or the fields
beyond the third are dropped. -/
theorem loadRecords_tolerance (up : Char → Char) (records : List (List String)) :
    (∀ key, InCatalog (loadRecords up records []) key ↔
      ∃ country state city more, (country :: state :: city :: more) ∈ records ∧
        stringsToUpper up (city ++ "-" ++ state ++ "-" ++ country) = key) ∧
    loadRecords up (records.filter (fun record => decide (3 ≤ record.length))) [] =
      loadRecords up records [] ∧
    loadRecords up (records.map (List.take 3)) [] = loadRecords up records [] := by
  refine ⟨?_, loadRecords_filter up records [], loadRecords_take up records []⟩
  intro key
  rw [InCatalog_loadRecords]
  simp [InCatalog]

theorem readRecords_ok (n : Nat) (rows : List (List String)) :
    ∀ records, readRecords n rows = .ok records →
      records = rows ∧ ∀ record ∈ rows, record.length = n := by
  induction rows with
  | nil =>
    intro records h
    simp only [readRecords, Except.ok.injEq] at h
    exact ⟨h.symm, by simp⟩
  | cons row rest ih =>
    intro records h
    by_cases hlen : row.length = n
    · simp only [readRecords, hlen, ne_eq, not_true_eq_false, if_false] at h
      cases hrest : readRecords n rest with
      | error err => rw [hrest] at h; cases h
      | ok rs =>
        rw [hrest] at h
        simp only [Except.ok.injEq] at h
        obtain ⟨hrs, hall⟩ := ih rs hrest
        refine ⟨by rw [← h, hrs], ?_⟩
        intro record hmem
        rcases List.mem_cons.1 hmem with rfl | hmem
        · exact hlen
        · exact hall record hmem
    · simp only [readRecords, ne_eq, hlen, not_false_eq_true, if_true] at h
      cases h

/-- What the reader hands to the loop: the rows themselves, all as wide as the first. -/
theorem readAll_ok (rows records : List (List String)) (h : readAll rows = .ok records) :
    records = rows ∧
      ∀ record ∈ rows, ∀ record2 ∈ rows, record.length = record2.length := by
  cases rows with
  | nil =>
    simp only [readAll, Except.ok.injEq] at h
    exact ⟨h.symm, by simp⟩
  | cons first rest =>
    obtain ⟨hrec, hall⟩ := readRecords_ok first.length (first :: rest) records h
    exact ⟨hrec, fun r hr r2 hr2 => (hall r hr).trans (hall r2 hr2).symm⟩

/-- C13, on the code. Malformed-row tolerance fails on a file with a well-formed record
followed by a row of two fields: the reader rejects the second row for its number of
fields and `loadRegions` returns the error, without a catalog, where the claim has the
load succeed with the key `HUBLI-KARNATAKA-INDIA` in the catalog, which is what the loop
alone builds from these rows. -/
theorem loadRegions_short_row_fails_load :
    readAll raggedRows = .error "wrong number of fields" ∧
    loadRegions asciiToUpper (readAll raggedRows) = .error "wrong number of fields" ∧
    loadRecords asciiToUpper raggedRows [] =
      [("HUBLI-KARNATAKA-INDIA", ⟨"India", "Karnataka", "Hubli"⟩)] ∧
    loadRecords asciiToUpper (raggedRows.filter (fun record => decide (3 ≤ record.length))) []
      = [("HUBLI-KARNATAKA-INDIA", ⟨"India", "Karnataka", "Hubli"⟩)] :=
  ⟨rfl, rfl, by decide, by decide⟩

/-! ## The sample run of `main` -/

theorem stringsToUpper_ascii (up : Char → Char) (hascii : AgreesOnAscii up) (s : String)
    (hs : ∀ c ∈ s.data, c.toNat < 128) :
    stringsToUpper up s = stringsToUpper asciiToUpper s := by
  apply String.ext
  show s.data.map up = s.data.map asciiToUpper
  exact List.map_congr_left (fun c hc => hascii c (hs c hc))

theorem loadRecords_sample (up : Char → Char) (hascii : AgreesOnAscii up) :
    loadRecords up sampleRecords [] = sampleRegions := by
  have h1 : regionKey up "UnitedStates" "Illinois" "Chicago" =
      "CHICAGO-ILLINOIS-UNITEDSTATES" := by
    unfold regionKey
    rw [stringsToUpper_ascii up hascii _ (by decide)]
    decide
  have h2 : regionKey up "India" "TamilNadu" "Chennai" = "CHENNAI-TAMILNADU-INDIA" := by
    unfold regionKey
    rw [stringsToUpper_ascii up hascii _ (by decide)]
    decide
  have h3 : regionKey up "India" "Karnataka" "Bangalore" = "BANGALORE-KARNATAKA-INDIA" := by
    unfold regionKey
    rw [stringsToUpper_ascii up hascii _ (by decide)]
    decide
  have h4 : regionKey up "India" "Karnataka" "Hubli" = "HUBLI-KARNATAKA-INDIA" := by
    unfold regionKey
    rw [stringsToUpper_ascii up hascii _ (by decide)]
    decide
  simp only [sampleRecords, loadRecords, h1, h2, h3, h4]
  decide

/-- C14. End-to-end scenarios: the catalog built by `loadRegions` from the four sample
records, with the distributors A = `distributor1`, B = `distributor2` (parent A) and
C = `distributor3` (parent B) of `main`, gives `true` for A on Chicago, `false` for A on
Chennai, `false` for A on Bangalore, `false` for B on Chennai and `true` for C on Hubli.
The table of `ToUpper` is any table that is the ASCII uppercasing on ASCII. -/
theorem sample_scenarios (up : Char → Char) (hascii : AgreesOnAscii up) :
    ∃ regions, loadRegions up (.ok sampleRecords) = .ok regions ∧
      (hasPermission distributor1 "CHICAGO-ILLINOIS-UNITEDSTATES" regions).1 = true ∧
      (hasPermission distributor1 "CHENNAI-TAMILNADU-INDIA" regions).1 = false ∧
      (hasPermission distributor1 "BANGALORE-KARNATAKA-INDIA" regions).1 = false ∧
      (hasPermission distributor2 "CHENNAI-TAMILNADU-INDIA" regions).1 = false ∧
      (hasPermission distributor3 "HUBLI-KARNATAKA-INDIA" regions).1 = true := by
  refine ⟨sampleRegions, ?_, by decide, by decide, by decide, by decide, by decide⟩
  exact congrArg Except.ok (loadRecords_sample up hascii)

/-- Witness of C14: the ASCII table itself; the catalog is `sampleRegions` and none of
the five queries prints a line. -/
theorem sample_scenarios_witness :
    AgreesOnAscii asciiToUpper ∧
    (∃ regions, loadRegions asciiToUpper (.ok sampleRecords) = .ok regions ∧
      (hasPermission distributor1 "CHICAGO-ILLINOIS-UNITEDSTATES" regions).1 = true ∧
      (hasPermission distributor1 "CHENNAI-TAMILNADU-INDIA" regions).1 = false ∧
      (hasPermission distributor1 "BANGALORE-KARNATAKA-INDIA" regions).1 = false ∧
      (hasPermission distributor2 "CHENNAI-TAMILNADU-INDIA" regions).1 = false ∧
      (hasPermission distributor3 "HUBLI-KARNATAKA-INDIA" regions).1 = true) :=
  ⟨fun _ _ => rfl, sample_scenarios asciiToUpper (fun _ _ => rfl)⟩

/-! ## Termination of the ancestor walk -/

theorem ChainOfDepth.depth_unique {store : Store} {addr n : Nat}
    (h : ChainOfDepth store addr n) :
    ∀ m, ChainOfDepth store addr m → n = m := by
  induction h with
  | root hcell hpar =>
    intro m hm
    cases hm with
    | root _ _ => rfl
    | link hcell2 hpar2 _ =>
      rw [hcell] at hcell2
      cases hcell2
      rw [hpar] at hpar2
      cases hpar2
  | link hcell hpar _ ih =>
    intro m hm
    cases hm with
    | root hcell2 hpar2 =>
      rw [hcell] at hcell2
      cases hcell2
      rw [hpar] at hpar2
      cases hpar2
    | link hcell2 hpar2 hrest =>
      rw [hcell] at hcell2
      cases hcell2
      rw [hpar] at hpar2
      cases hpar2
      rw [ih _ hrest]

theorem hasPermissionAt_succ (store : Store) (key : String) (regions : Catalog)
    (fuel addr : Nat) (cell : Cell) (hcell : store[addr]? = some cell) :
    hasPermissionAt store key regions (fuel + 1) addr =
      if !(mapLookup regions key).isSome then
        some ⟨false, [invalidRegionLine key], [addr]⟩
      else if matchesAny key cell.Permissions.Exclusions then
        some ⟨false, [], [addr]⟩
      else if matchesAny key cell.Permissions.Inclusions then
        some ⟨true, [], [addr]⟩
      else
        match cell.Parent with
        | some p =>
          match hasPermissionAt store key regions fuel p with
          | some run => some ⟨run.result, run.lines, addr :: run.visited⟩
          | none => none
        | none => some ⟨false, [], [addr]⟩ := by
  simp only [hasPermissionAt, hcell]

theorem hasPermissionAt_chain (store : Store) (key : String) (regions : Catalog)
    {addr n : Nat} (h : ChainOfDepth store addr n) :
    ∀ fuel, n + 1 ≤ fuel →
      ∃ run, hasPermissionAt store key regions fuel addr = some run ∧
        run.visited.length ≤ n + 1 ∧ run.visited.Nodup ∧
        ∀ v ∈ run.visited, ∃ m, m ≤ n ∧ ChainOfDepth store v m := by
  induction h with
  | @root addr cell hcell hpar =>
    intro fuel hfuel
    obtain ⟨f, rfl⟩ : ∃ f, fuel = f + 1 := ⟨fuel - 1, by omega⟩
    have hself : ∀ v ∈ [addr], ∃ m, m ≤ 0 ∧ ChainOfDepth store v m := by
      intro v hv
      rw [List.mem_singleton] at hv
      subst hv
      exact ⟨0, le_refl _, ChainOfDepth.root hcell hpar⟩
    rw [hasPermissionAt_succ store key regions f addr cell hcell, hpar]
    split_ifs
    · exact ⟨_, rfl, by simp, by simp, hself⟩
    · exact ⟨_, rfl, by simp, by simp, hself⟩
    · exact ⟨_, rfl, by simp, by simp, hself⟩
    · exact ⟨_, rfl, by simp, by simp, hself⟩
  | @link addr p n cell hcell hpar hrest ih =>
    intro fuel hfuel
    obtain ⟨f, rfl⟩ : ∃ f, fuel = f + 1 := ⟨fuel - 1, by omega⟩
    have hdepth : ChainOfDepth store addr (n + 1) := ChainOfDepth.link hcell hpar hrest
    have hself : ∀ v ∈ [addr], ∃ m, m ≤ n + 1 ∧ ChainOfDepth store v m := by
      intro v hv
      rw [List.mem_singleton] at hv
      subst hv
      exact ⟨n + 1, le_refl _, hdepth⟩
    obtain ⟨run, hrun, hlen, hnodup, hvis⟩ := ih f (by omega)
    rw [hasPermissionAt_succ store key regions f addr cell hcell, hpar]
    split_ifs
    · exact ⟨_, rfl, by simp, by simp, hself⟩
    · exact ⟨_, rfl, by simp, by simp, hself⟩
    · exact ⟨_, rfl, by simp, by simp, hself⟩
    · simp only [hrun]
      refine ⟨_, rfl, by simpa using hlen, ?_, ?_⟩
      · refine List.nodup_cons.2 ⟨fun hmem => ?_, hnodup⟩
        obtain ⟨m, hm, hchain⟩ := hvis addr hmem
        have := hdepth.depth_unique m hchain
        omega
      · intro v hv
        rcases List.mem_cons.1 hv with rfl | hv
        · exact ⟨n + 1, le_refl _, hdepth⟩
        · obtain ⟨m, hm, hchain⟩ := hvis v hv
          exact ⟨m, by omega, hchain⟩

/-- On a parent cycle of distributors that are silent on a key of the catalog the walk
never returns: the fuel runs out, whatever the fuel. -/
theorem hasPermissionAt_cycle (fuel : Nat) :
    hasPermissionAt cyclicStore "CHENNAI-TAMILNADU-INDIA" sampleRegions fuel 0 = none ∧
    hasPermissionAt cyclicStore "CHENNAI-TAMILNADU-INDIA" sampleRegions fuel 1 = none := by
  induction fuel with
  | zero => exact ⟨rfl, rfl⟩
  | succ f ih =>
    constructor
    · rw [hasPermissionAt_succ _ _ _ f 0 ⟨"X", ⟨[], []⟩, some 1⟩ rfl]
      have hk : (mapLookup sampleRegions "CHENNAI-TAMILNADU-INDIA").isSome = true := by decide
      simp [hk, matchesAny, ih.2]
    · rw [hasPermissionAt_succ _ _ _ f 1 ⟨"Y", ⟨[], []⟩, some 0⟩ rfl]
      have hk : (mapLookup sampleRegions "CHENNAI-TAMILNADU-INDIA").isSome = true := by decide
      simp [hk, matchesAny, ih.1]

/-- The walk on the store computes what `hasPermission` computes on the distributor the
chain stands for. -/
theorem hasPermissionAt_agrees (store : Store) (key : String) (regions : Catalog)
    {addr n : Nat} (h : ChainOfDepth store addr n) :
    ∀ fuel, n + 1 ≤ fuel →
      ∃ d, distributorAt store fuel addr = some d ∧
        (hasPermissionAt store key regions fuel addr).map (fun r => (r.result, r.lines)) =
          some (hasPermission d key regions) := by
  induction h with
  | @root addr cell hcell hpar =>
    intro fuel hfuel
    obtain ⟨f, rfl⟩ : ∃ f, fuel = f + 1 := ⟨fuel - 1, by omega⟩
    refine ⟨.mk cell.Name cell.Permissions none, by simp [distributorAt, hcell, hpar], ?_⟩
    rw [hasPermissionAt_succ store key regions f addr cell hcell, hpar]
    unfold hasPermission
    by_cases h1 : (mapLookup regions key).isSome = true <;>
      by_cases h2 : matchesAny key cell.Permissions.Exclusions = true <;>
      by_cases h3 : matchesAny key cell.Permissions.Inclusions = true <;>
      simp [h1, h2, h3]
  | @link addr p n cell hcell hpar hrest ih =>
    intro fuel hfuel
    obtain ⟨f, rfl⟩ : ∃ f, fuel = f + 1 := ⟨fuel - 1, by omega⟩
    obtain ⟨d, hd, hrun⟩ := ih f (by omega)
    refine ⟨.mk cell.Name cell.Permissions (some d),
      by simp [distributorAt, hcell, hpar, hd], ?_⟩
    rw [hasPermissionAt_succ store key regions f addr cell hcell, hpar]
    conv_rhs => unfold hasPermission
    cases hp : hasPermissionAt store key regions f p with
    | none => rw [hp] at hrun; simp at hrun
    | some run =>
      rw [hp] at hrun
      simp only [Option.map_some', Option.some.injEq] at hrun
      by_cases h1 : (mapLookup regions key).isSome = true <;>
        by_cases h2 : matchesAny key cell.Permissions.Exclusions = true <;>
        by_cases h3 : matchesAny key cell.Permissions.Inclusions = true <;>
        simp [h1, h2, h3, hrun, hp]

/-- C15. Termination of the ancestor walk: with distributors as cells with an optional
parent address, for a distributor whose parent chain ends after `n` links,
`hasPermission` returns a boolean for every catalog and key as soon as the recursion
depth `n + 1` is allowed; it is called on at most `n + 1` distributors and on none of
them twice; the boolean and the printed lines are those of `hasPermission` on the
distributor with that finite parent chain. -/
theorem hasPermissionAt_terminates
    (store : Store) (key : String) (regions : Catalog) (addr n : Nat)
    (h : ChainOfDepth store addr n) (fuel : Nat) (hfuel : n + 1 ≤ fuel) :
    ∃ run d, hasPermissionAt store key regions fuel addr = some run ∧
      run.visited.length ≤ n + 1 ∧ run.visited.Nodup ∧
      distributorAt store fuel addr = some d ∧
      hasPermission d key regions = (run.result, run.lines) := by
  obtain ⟨run, hrun, hlen, hnodup, _⟩ := hasPermissionAt_chain store key regions h fuel hfuel
  obtain ⟨d, hd, hagree⟩ := hasPermissionAt_agrees store key regions h fuel hfuel
  rw [hrun] at hagree
  simp only [Option.map_some', Option.some.injEq] at hagree
  exact ⟨run, d, hrun, hlen, hnodup, hd, hagree.symm⟩

/-- Witness of C15: `distributor3` in the sample store, a chain of two links, on a key of
the catalog on which all three levels are silent. -/
theorem hasPermissionAt_terminates_witness :
    ChainOfDepth sampleStore 2 2 ∧ 2 + 1 ≤ 3 ∧
    (∃ run d, hasPermissionAt sampleStore "PARIS-IDF-FRANCE"
        [("PARIS-IDF-FRANCE", ⟨"France", "IDF", "Paris"⟩)] 3 2 = some run ∧
      run.visited.length ≤ 2 + 1 ∧ run.visited.Nodup ∧
      distributorAt sampleStore 3 2 = some d ∧
      hasPermission d "PARIS-IDF-FRANCE"
        [("PARIS-IDF-FRANCE", ⟨"France", "IDF", "Paris"⟩)] = (run.result, run.lines)) ∧
    hasPermissionAt sampleStore "PARIS-IDF-FRANCE"
        [("PARIS-IDF-FRANCE", ⟨"France", "IDF", "Paris"⟩)] 3 2 =
      some ⟨false, [], [2, 1, 0]⟩ :=
  have hchain : ChainOfDepth sampleStore 2 2 :=
    @ChainOfDepth.link sampleStore 2 1 1
      ⟨"DISTRIBUTOR3", ⟨["HUBLI-KARNATAKA-INDIA"], []⟩, some 1⟩ rfl rfl
      (@ChainOfDepth.link sampleStore 1 0 0
        ⟨"DISTRIBUTOR2", ⟨["INDIA"], ["TAMILNADU-INDIA"]⟩, some 0⟩ rfl rfl
        (@ChainOfDepth.root sampleStore 0
          ⟨"DISTRIBUTOR1", ⟨["INDIA", "UNITEDSTATES"],
            ["KARNATAKA-INDIA", "CHENNAI-TAMILNADU-INDIA"]⟩, none⟩ rfl rfl))
  ⟨hchain, le_refl 3,
    hasPermissionAt_terminates sampleStore _ _ 2 2 hchain 3 (le_refl 3), by decide⟩

/-! ## Query keys are not normalized -/

theorem asciiToUpper_idem (c : Char) : asciiToUpper (asciiToUpper c) = asciiToUpper c := by
  by_cases h : 97 ≤ c.toNat ∧ c.toNat ≤ 122
  · have hc : asciiToUpper c = Char.ofNat (c.toNat - 32) := by simp [asciiToUpper, h]
    rw [hc]
    obtain ⟨h1, h2⟩ := h
    generalize c.toNat = n at h1 h2
    interval_cases n <;> decide
  · have hc : asciiToUpper c = c := by simp [asciiToUpper, h]
    rw [hc, hc]

theorem stringsToUpper_idem (up : Char → Char) (hidem : ∀ c, up (up c) = up c)
    (s : String) : stringsToUpper up (stringsToUpper up s) = stringsToUpper up s := by
  apply String.ext
  show (s.data.map up).map up = s.data.map up
  rw [List.map_map]
  exact List.map_congr_left (fun c _ => hidem c)

/-- C16. The resolver does not normalize its input: every key of a catalog built by
`loadRegions` is left unchanged by uppercasing, and therefore `hasPermission` returns
`false` for every distributor on every query key that differs from its own uppercased
form. The table of `ToUpper` is any table that leaves its own results unchanged. -/
theorem hasPermission_not_normalized
    (up : Char → Char) (hidem : ∀ c, up (up c) = up c) (records : List (List String)) :
    ∃ regions, loadRegions up (.ok records) = .ok regions ∧
      (∀ key, InCatalog regions key → stringsToUpper up key = key) ∧
      (∀ (d : Distributor) (key : String), stringsToUpper up key ≠ key →
        (hasPermission d key regions).1 = false) := by
  have hkeys : ∀ key, InCatalog (loadRecords up records []) key →
      stringsToUpper up key = key := by
    rintro key ⟨region, hmem⟩
    exact loadRecords_entries up (fun e => stringsToUpper up e.1 = e.1)
      (fun country state city => stringsToUpper_idem up hidem _)
      records [] (by simp) (key, region) hmem
  refine ⟨loadRecords up records [], rfl, hkeys, ?_⟩
  intro d key hne
  rw [hasPermission_invalid d key _ (fun hk => hne (hkeys key hk))]

/-- Witness of C16: the lowercase spelling of the Chicago key is denied to
`distributor1`, whose inclusion `UNITEDSTATES` matches the uppercased key, which is in
the catalog and granted. -/
theorem hasPermission_not_normalized_witness :
    (∀ c, asciiToUpper (asciiToUpper c) = asciiToUpper c) ∧
    (∃ regions, loadRegions asciiToUpper (.ok sampleRecords) = .ok regions ∧
      (∀ key, InCatalog regions key → stringsToUpper asciiToUpper key = key) ∧
      (∀ (d : Distributor) (key : String), stringsToUpper asciiToUpper key ≠ key →
        (hasPermission d key regions).1 = false)) ∧
    loadRecords asciiToUpper sampleRecords [] = sampleRegions ∧
    stringsToUpper asciiToUpper "chicago-illinois-unitedstates" =
      "CHICAGO-ILLINOIS-UNITEDSTATES" ∧
    hasPermission distributor1 "CHICAGO-ILLINOIS-UNITEDSTATES" sampleRegions = (true, []) ∧
    hasPermission distributor1 "chicago-illinois-unitedstates" sampleRegions =
      (false, ["Invalid region: chicago-illinois-unitedstates"]) :=
  ⟨asciiToUpper_idem,
    hasPermission_not_normalized asciiToUpper asciiToUpper_idem sampleRecords,
    by decide, by decide, by decide, by decide⟩

/-! ## Assigning rules -/

/-- C17. The frame of `assignPermission`: with `"INCLUDE"` the distributor changes only
by `r` appended at the end of its inclusions, with `"EXCLUDE"` only by `r` appended at
the end of its exclusions, and with every other permission type it is unchanged. -/
theorem assignPermission_frame (d : Distributor) (permissionType r : String) :
    assignPermission d "INCLUDE" r =
      .mk d.Name ⟨d.Permissions.Inclusions ++ [r], d.Permissions.Exclusions⟩ d.Parent ∧
    assignPermission d "EXCLUDE" r =
      .mk d.Name ⟨d.Permissions.Inclusions, d.Permissions.Exclusions ++ [r]⟩ d.Parent ∧
    (permissionType ≠ "INCLUDE" → permissionType ≠ "EXCLUDE" →
      assignPermission d permissionType r = d) := by
  obtain ⟨n, perms, parent⟩ := d
  refine ⟨?_, ?_, ?_⟩
  · simp [assignPermission, Distributor.Name, Distributor.Permissions, Distributor.Parent]
  · have hne : ("EXCLUDE" : String) ≠ "INCLUDE" := by decide
    simp [assignPermission, hne, Distributor.Name, Distributor.Permissions,
      Distributor.Parent]
  · intro h1 h2
    simp [assignPermission, h1, h2]

/-- Witness of C17: the lowercase permission types leave `distributor2` unchanged. -/
theorem assignPermission_frame_witness :
    ("include" : String) ≠ "INCLUDE" ∧ ("include" : String) ≠ "EXCLUDE" ∧
    (assignPermission distributor2 "INCLUDE" "KERALA-INDIA" =
        .mk distributor2.Name
          ⟨distributor2.Permissions.Inclusions ++ ["KERALA-INDIA"],
            distributor2.Permissions.Exclusions⟩ distributor2.Parent ∧
      assignPermission distributor2 "EXCLUDE" "KERALA-INDIA" =
        .mk distributor2.Name
          ⟨distributor2.Permissions.Inclusions,
            distributor2.Permissions.Exclusions ++ ["KERALA-INDIA"]⟩ distributor2.Parent ∧
      (("include" : String) ≠ "INCLUDE" → ("include" : String) ≠ "EXCLUDE" →
        assignPermission distributor2 "include" "KERALA-INDIA" = distributor2)) :=
  ⟨by decide, by decide, assignPermission_frame distributor2 "include" "KERALA-INDIA"⟩

theorem matchesAny_append (key : String) (l : List String) (r : String) :
    matchesAny key (l ++ [r]) = (matchesAny key l || stringsContains key r) := by
  induction l with
  | nil => simp [matchesAny]
  | cons f fs ih =>
    simp only [List.cons_append, matchesAny]
    by_cases h : stringsContains key f = true <;> simp [h, ih]

/-- C18. Monotonicity of rule assignment: adding an exclusion with
`assignPermission(d, "EXCLUDE", r)` never turns a `false` of `hasPermission` into `true`,
and adding an inclusion with `assignPermission(d, "INCLUDE", r)` never turns a `true`
into `false`. -/
theorem assignPermission_monotone
    (d : Distributor) (r key : String) (regions : Catalog) :
    ((hasPermission d key regions).1 = false →
      (hasPermission (assignPermission d "EXCLUDE" r) key regions).1 = false) ∧
    ((hasPermission d key regions).1 = true →
      (hasPermission (assignPermission d "INCLUDE" r) key regions).1 = true) := by
  obtain ⟨n, perms, parent⟩ := d
  have hne : ("EXCLUDE" : String) ≠ "INCLUDE" := by decide
  simp only [assignPermission, hne, if_false, if_true]
  unfold hasPermission
  simp only [matchesAny_append]
  by_cases hk : (mapLookup regions key).isSome = true <;>
    by_cases hx : matchesAny key perms.Exclusions = true <;>
    by_cases hi : matchesAny key perms.Inclusions = true <;>
    by_cases hr : stringsContains key r = true <;>
    simp [hk, hx, hi, hr]

/-- Witness of C18: an exclusion added to `distributor1`, and an inclusion added to
`distributor2`, which fell back to its parent on Chicago. -/
theorem assignPermission_monotone_witness :
    ((hasPermission distributor1 "BANGALORE-KARNATAKA-INDIA" sampleRegions).1 = false ∧
      (hasPermission (assignPermission distributor1 "EXCLUDE" "ILLINOIS")
        "BANGALORE-KARNATAKA-INDIA" sampleRegions).1 = false) ∧
    ((hasPermission distributor2 "CHICAGO-ILLINOIS-UNITEDSTATES" sampleRegions).1 = true ∧
      (hasPermission (assignPermission distributor2 "INCLUDE" "ILLINOIS")
        "CHICAGO-ILLINOIS-UNITEDSTATES" sampleRegions).1 = true) :=
  ⟨⟨by decide,
      (assignPermission_monotone distributor1 "ILLINOIS" "BANGALORE-KARNATAKA-INDIA"
        sampleRegions).1 (by decide)⟩,
    ⟨by decide,
      (assignPermission_monotone distributor2 "ILLINOIS" "CHICAGO-ILLINOIS-UNITEDSTATES"
        sampleRegions).2 (by decide)⟩⟩

/-! ## The empty fragment -/

theorem Substr_empty (key : String) : Substr "" key :=
  (List.nil_infix : [] <:+: key.data)

/-- C19. The empty fragment: a distributor whose exclusions contain `""` is denied every
key, for every catalog and whatever its inclusions and parents; a distributor whose
inclusions contain `""` is granted every key of the catalog that none of its exclusion
fragments occurs in. -/
theorem hasPermission_empty_fragment
    (d : Distributor) (key : String) (regions : Catalog) :
    ("" ∈ d.Permissions.Exclusions → (hasPermission d key regions).1 = false) ∧
    ("" ∈ d.Permissions.Inclusions → ¬ Excludes d key → InCatalog regions key →
      (hasPermission d key regions).1 = true) := by
  constructor
  · intro hmem
    by_cases hk : InCatalog regions key
    · rw [hasPermission_excluded d key regions hk ⟨"", hmem, Substr_empty key⟩]
    · rw [hasPermission_invalid d key regions hk]
  · intro hmem hx hk
    rw [hasPermission_included d key regions hk hx ⟨"", hmem, Substr_empty key⟩]

/-- Witness of C19: `emptyExclusion` is denied Chicago, which its parent is granted, and
`emptyInclusion` is granted Chicago, on which it has no rule but the empty one. -/
theorem hasPermission_empty_fragment_witness :
    ("" ∈ emptyExclusion.Permissions.Exclusions ∧
      (hasPermission emptyExclusion "CHICAGO-ILLINOIS-UNITEDSTATES" sampleRegions).1 = false ∧
      (hasPermission distributor1 "CHICAGO-ILLINOIS-UNITEDSTATES" sampleRegions).1 = true) ∧
    ("" ∈ emptyInclusion.Permissions.Inclusions ∧
      ¬ Excludes emptyInclusion "CHICAGO-ILLINOIS-UNITEDSTATES" ∧
      InCatalog sampleRegions "CHICAGO-ILLINOIS-UNITEDSTATES" ∧
      (hasPermission emptyInclusion "CHICAGO-ILLINOIS-UNITEDSTATES" sampleRegions).1 = true) :=
  have hx : ¬ Excludes emptyInclusion "CHICAGO-ILLINOIS-UNITEDSTATES" := by
    rw [Excludes_iff_matchesAny]; decide
  have hk : InCatalog sampleRegions "CHICAGO-ILLINOIS-UNITEDSTATES" :=
    (InCatalog_iff_lookup _ _).2 (by decide)
  ⟨⟨by decide,
      (hasPermission_empty_fragment emptyExclusion "CHICAGO-ILLINOIS-UNITEDSTATES"
        sampleRegions).1 (by decide),
      by decide⟩,
    ⟨by decide, hx, hk,
      (hasPermission_empty_fragment emptyInclusion "CHICAGO-ILLINOIS-UNITEDSTATES"
        sampleRegions).2 (by decide) hx hk⟩⟩

end Challenge2016
